import Mathlib

/-!
Shallow embedding of the rxing fixed-threshold binarizer
(`src/common/fixed_threshold_binarizer.rs`) and the witness-data holder
(`src/witness_data.rs`).

Modelling conventions:
- `u8` luminance samples and thresholds are `Nat` (all comparisons in the
  source are plain `<` on bytes; no arithmetic that could overflow occurs).
- Rust `Result<T>` together with the possibility of a panic is modelled by
  `RustResult`: `ok`, `err` (a returned `Err(Exceptions...)`) and
  `panicked` (an uncaught panic, e.g. an out-of-range `Vec` index or a
  failed `assert!`).  Where a function can only panic (never return `Err`),
  `Option` is used with `none` standing for the panic.
- The `OnceCell` caches of the binarizer are explicit state
  (`BinarizerState`); each stateful method takes the state and returns the
  result paired with the updated state.
- `LuminanceSource` (a trait implemented outside these two files) is an
  abstract provider record, following its use sites here: `get_row`
  returns an optional byte sequence (absent exactly when the row index is
  out of range), `get_column` and `get_matrix` return byte sequences.
-/

namespace Rxing

/-- Error values: the source builds `Exceptions::index_out_of_bounds_with`;
`BitMatrix::new` can return an illegal-argument error. -/
inductive Exceptions where
  | indexOutOfBounds (msg : String)
  | illegalArgument (msg : String)
deriving DecidableEq, Repr

/-- Outcome of running a fallible Rust function: a returned `Ok`, a returned
`Err`, or an uncaught panic. -/
inductive RustResult (α : Type) where
  | ok : α → RustResult α
  | err : Exceptions → RustResult α
  | panicked : RustResult α
deriving DecidableEq, Repr

/-- `BitArray` (opaque ordered bit container, used here through
`with_size`, `set` and `get`): a list of bits.  `with_size n` is all-false
of length `n`; `get` out of range reads false. -/
structure BitArray where
  bits : List Bool
deriving DecidableEq, Repr

def BitArray.with_size (n : Nat) : BitArray := ⟨List.replicate n false⟩

def BitArray.set (a : BitArray) (i : Nat) : BitArray := ⟨a.bits.set i true⟩

def BitArray.get (a : BitArray) (i : Nat) : Bool := (a.bits[i]?).getD false

/-- `BitMatrix` (opaque 2-D bit container): a `width × height` bit grid,
stored row-major.  `get x y` reads the bit at `(x, y)`; `set x y` sets it. -/
structure BitMatrix where
  width : Nat
  height : Nat
  bits : List Bool
deriving DecidableEq, Repr

/-- Modelled from the spec: `BinaryMatrix` construction is
`(width, height) -> Result` (the container's own code is outside the two
embedded files); dimensions that admit no address `x < width`, `y < height`
are rejected with an illegal-argument error, matching the upstream
container contract used by `get_black_matrix`'s `BitMatrix::new(..)?`. -/
def BitMatrix.new (w h : Nat) : RustResult BitMatrix :=
  if w = 0 ∨ h = 0 then
    .err (.illegalArgument "Both dimensions must be greater than 0")
  else
    .ok ⟨w, h, List.replicate (w * h) false⟩

def BitMatrix.set (m : BitMatrix) (x y : Nat) : BitMatrix :=
  { m with bits := m.bits.set (y * m.width + x) true }

def BitMatrix.get (m : BitMatrix) (x y : Nat) : Bool :=
  (m.bits[y * m.width + x]?).getD false

/-- Modelled from the spec: `extract_row(y) -> independent bit sequence`
(the container's `getRow` lives outside the embedded files): the row `y`
of the matrix as a fresh `BitArray` of `width` bits. -/
def BitMatrix.getRow (m : BitMatrix) (y : Nat) : BitArray :=
  ⟨(List.range m.width).map (fun x => m.get x y)⟩

/-- The abstract luminance provider, as consumed by the binarizer:
`get_width`, `get_height`, `get_row(y)` (optional row, absent iff `y` is
out of `[0, height)`), `get_column(x)`, `get_matrix()` (row-major full
buffer). -/
structure LuminanceSource where
  width : Nat
  height : Nat
  row : Nat → Option (List Nat)
  column : Nat → List Nat
  matrix : List Nat

/-- Line orientation selector for `get_black_line`. -/
inductive LineOrientation where
  | Row
  | Column
deriving DecidableEq, Repr

/-- The immutable part of `FixedThresholdBinarizer`: the owned source, the
fixed threshold, and the width/height copied from the source at
construction. -/
structure Binarizer where
  source : LuminanceSource
  threshold : Nat
  width : Nat
  height : Nat

/-- The mutable part of `FixedThresholdBinarizer`: the three `OnceCell`
cache tiers.  `none` is an unsettled cell, `some v` a settled one. -/
structure BinarizerState where
  black_matrix : Option BitMatrix
  black_row_cache : List (Option BitArray)
  black_column_cache : List (Option BitArray)
deriving DecidableEq, Repr

def DEFAULT_THRESHOLD : Nat := 128

/-- `FixedThresholdBinarizer::with_threshold`: records width and height
from the source. -/
def Binarizer.with_threshold (source : LuminanceSource) (threshold : Nat) :
    Binarizer :=
  { source := source, threshold := threshold,
    width := source.width, height := source.height }

/-- `FixedThresholdBinarizer::new`: default threshold 128. -/
def Binarizer.new (source : LuminanceSource) : Binarizer :=
  Binarizer.with_threshold source DEFAULT_THRESHOLD

/-- The freshly allocated caches of `with_threshold`: `height` row cells,
`width` column cells, one matrix cell, all unsettled. -/
def init_state (source : LuminanceSource) : BinarizerState :=
  { black_matrix := none,
    black_row_cache := List.replicate source.height none,
    black_column_cache := List.replicate source.width none }

def Binarizer.get_threshold (b : Binarizer) : Nat := b.threshold

def Binarizer.get_width (b : Binarizer) : Nat := b.width

def Binarizer.get_height (b : Binarizer) : Nat := b.height

/-- The binarization loop shared by `get_black_row` and the column branch of
`get_black_line`: `for (x, &luminance) in luminances.iter().enumerate().take(width)
{ if luminance < threshold { row.set(x) } }`, with `x` the running index. -/
def binarize_loop (t w : Nat) (x : Nat) (lums : List Nat) (row : BitArray) :
    BitArray :=
  match lums with
  | [] => row
  | v :: rest =>
    if x < w then
      binarize_loop t w (x + 1) rest (if v < t then row.set x else row)
    else row

/-- `get_black_row`: `self.black_row_cache[y]` (a panic when `y` is out of
range of the cache vector), then `get_or_try_init`: on a settled cell the
stored row is returned unchanged; on an unsettled cell the provider row is
read (`None` becomes the index-out-of-bounds error), binarized into a fresh
`BitArray` of `width` bits, stored, and returned. -/
def get_black_row (b : Binarizer) (st : BinarizerState) (y : Nat) :
    RustResult (BitArray × BinarizerState) :=
  match st.black_row_cache[y]? with
  | none => .panicked
  | some (some row) => .ok (row, st)
  | some none =>
    let width := b.source.width
    match b.source.row y with
    | none => .err (.indexOutOfBounds "row out of bounds")
    | some luminances =>
      let row := binarize_loop b.threshold width 0 luminances
        (BitArray.with_size width)
      .ok (row, { st with black_row_cache := st.black_row_cache.set y (some row) })

/-- `get_black_line`: `Row` delegates to `get_black_row`; `Column` indexes
`self.black_column_cache[l]` (a panic when `l` is out of range), then on an
unsettled cell reads the provider column and binarizes `height` bits. -/
def get_black_line (b : Binarizer) (st : BinarizerState) (l : Nat)
    (lt : LineOrientation) : RustResult (BitArray × BinarizerState) :=
  if lt = LineOrientation.Row then
    get_black_row b st l
  else
    match st.black_column_cache[l]? with
    | none => .panicked
    | some (some col) => .ok (col, st)
    | some none =>
      let height := b.source.height
      let luminances := b.source.column l
      let col := binarize_loop b.threshold height 0 luminances
        (BitArray.with_size height)
      .ok (col, { st with black_column_cache := st.black_column_cache.set l (some col) })

/-- One row of the `get_black_matrix` double loop:
`for x in 0..width { if luminances[y*width+x] < threshold { matrix.set(x, y) } }`. -/
def fill_matrix_row (t w : Nat) (lums : List Nat) (y : Nat) (m : BitMatrix) :
    BitMatrix :=
  (List.range w).foldl
    (fun acc x => if lums.getD (y * w + x) 0 < t then acc.set x y else acc) m

/-- The full `get_black_matrix` double loop over `y in 0..height`. -/
def fill_matrix (t w h : Nat) (lums : List Nat) (m : BitMatrix) : BitMatrix :=
  (List.range h).foldl (fun acc y => fill_matrix_row t w lums y acc) m

/-- `get_black_matrix`: on a settled matrix cell the cached matrix is
returned; otherwise a fresh `BitMatrix` is allocated (its constructor error
propagated by `?`), the full buffer is read and indexed at `y*width+x` for
every pixel (a panic as soon as an index reaches past the buffer, i.e. iff
the buffer is shorter than `width*height`), and the filled matrix is
stored. -/
def get_black_matrix (b : Binarizer) (st : BinarizerState) :
    RustResult (BitMatrix × BinarizerState) :=
  match st.black_matrix with
  | some m => .ok (m, st)
  | none =>
    let w := b.source.width
    let h := b.source.height
    match BitMatrix.new w h with
    | .err e => .err e
    | .panicked => .panicked
    | .ok m0 =>
      let lums := b.source.matrix
      if lums.length < w * h then .panicked
      else
        let m := fill_matrix b.threshold w h lums m0
        .ok (m, { st with black_matrix := some m })

/-- `get_black_row_from_matrix`: if the matrix cell is settled, extract row
`y` from the cached matrix as an owned bit sequence; otherwise fall back to
`get_black_row`. -/
def get_black_row_from_matrix (b : Binarizer) (st : BinarizerState) (y : Nat) :
    RustResult (BitArray × BinarizerState) :=
  match st.black_matrix with
  | some matrix => .ok (matrix.getRow y, st)
  | none => get_black_row b st y

/-- `create_binarizer`: a new binarizer over another source with the same
threshold (its caches are the fresh `init_state` of that source). -/
def Binarizer.create_binarizer (b : Binarizer) (source : LuminanceSource) :
    Binarizer :=
  Binarizer.with_threshold source b.threshold

/-- `WitnessData` (`src/witness_data.rs`): width, height, the raw row-major
luminance buffer, and the binarized matrix. -/
structure WitnessData where
  width : Nat
  height : Nat
  image : List Nat
  binarized_image : BitMatrix
deriving DecidableEq, Repr

/-- `WitnessData::new`: `assert_eq!(image.len(), width * height)` — `none`
is the assertion panic; on success every field is the argument, unchanged. -/
def WitnessData.new (width height : Nat) (image : List Nat)
    (binarized_image : BitMatrix) : Option WitnessData :=
  if image.length = width * height then
    some ⟨width, height, image, binarized_image⟩
  else
    none

/-- `WitnessData::get_pixel`: `assert!(x < width && y < height)` then the
raw `Vec` index `image[y * width + x]`; `none` is a panic (failed assert or
out-of-range buffer index). -/
def WitnessData.get_pixel (wd : WitnessData) (x y : Nat) : Option Nat :=
  if x < wd.width ∧ y < wd.height then
    wd.image[y * wd.width + x]?
  else
    none

/-- `WitnessData::get_binarized_pixel`: reads the bit from the matrix,
bounds handling delegated to the container. -/
def WitnessData.get_binarized_pixel (wd : WitnessData) (x y : Nat) : Bool :=
  wd.binarized_image.get x y

/-- The data part of a successful line call: the bit at position `i` of the
returned `BitArray`, or `none` when the call returned an error or
panicked. -/
def bitOfLine (r : RustResult (BitArray × BinarizerState)) (i : Nat) :
    Option Bool :=
  match r with
  | .ok (row, _) => some (row.get i)
  | _ => none

/-- The data part of a successful `get_black_matrix` call: the bit at
`(x, y)`, or `none` when the call returned an error or panicked. -/
def bitOfMatrix (r : RustResult (BitMatrix × BinarizerState)) (x y : Nat) :
    Option Bool :=
  match r with
  | .ok (m, _) => some (m.get x y)
  | _ => none

/-- A provider that is a coherent view of one image `img` (the implicit
contract of every `LuminanceSource` implementor): in-range rows and columns
are the corresponding slices of the image, out-of-range rows are absent,
and the full buffer is the row-major image of length `width * height`. -/
def SourceWF (s : LuminanceSource) (img : Nat → Nat → Nat) : Prop :=
  (∀ y, y < s.height → s.row y = some ((List.range s.width).map (fun x => img x y))) ∧
  (∀ y, s.height ≤ y → s.row y = none) ∧
  (∀ x, x < s.width → s.column x = (List.range s.height).map (fun y => img x y)) ∧
  s.matrix.length = s.width * s.height ∧
  (∀ x, x < s.width → ∀ y, y < s.height →
    s.matrix.getD (y * s.width + x) 0 = img x y)

/-- The black/white decision the loops make at position `i` of a luminance
line: black iff a sample exists there and it is below the threshold. -/
def sampleBlack (t : Nat) (lums : List Nat) (i : Nat) : Bool :=
  match lums[i]? with
  | some v => decide (v < t)
  | none => false

lemma sampleBlack_nil (t i : Nat) : sampleBlack t [] i = false := by
  simp [sampleBlack]

lemma sampleBlack_cons_succ (t v : Nat) (rest : List Nat) (i : Nat) :
    sampleBlack t (v :: rest) (i + 1) = sampleBlack t rest i := by
  simp [sampleBlack]

lemma sampleBlack_cons_zero (t v : Nat) (rest : List Nat) :
    sampleBlack t (v :: rest) 0 = decide (v < t) := by
  simp [sampleBlack]

lemma sampleBlack_map_range (t w : Nat) (f : Nat → Nat) (i : Nat) (hi : i < w) :
    sampleBlack t ((List.range w).map f) i = decide (f i < t) := by
  simp [sampleBlack, List.getElem?_map, List.getElem?_range, hi]

lemma BitArray.get_with_size (w i : Nat) : (BitArray.with_size w).get i = false := by
  by_cases hi : i < w
  · simp [BitArray.with_size, BitArray.get, List.getElem?_replicate, hi]
  · simp [BitArray.with_size, BitArray.get, List.getElem?_replicate, hi]

lemma BitArray.length_with_size (w : Nat) :
    (BitArray.with_size w).bits.length = w := by
  simp [BitArray.with_size]

lemma BitArray.length_set (a : BitArray) (j : Nat) :
    (a.set j).bits.length = a.bits.length := by
  simp [BitArray.set]

lemma BitArray.get_set_bit (a : BitArray) (j i : Nat) (hj : j < a.bits.length) :
    (a.set j).get i = if i = j then true else a.get i := by
  by_cases h : i = j
  · subst h
    simp only [BitArray.set, BitArray.get, if_pos rfl]
    rw [List.getElem?_set_self']
    simp [List.getElem?_eq_getElem hj]
  · simp only [BitArray.set, BitArray.get, if_neg h]
    rw [List.getElem?_set_ne (fun hji => h hji.symm)]

lemma binarize_loop_length (t w : Nat) (lums : List Nat) (x : Nat)
    (row : BitArray) :
    (binarize_loop t w x lums row).bits.length = row.bits.length := by
  induction lums generalizing x row with
  | nil => simp [binarize_loop]
  | cons v rest ih =>
    by_cases hx : x < w
    · rw [binarize_loop, if_pos hx, ih]
      by_cases hv : v < t <;> simp [hv, BitArray.length_set]
    · rw [binarize_loop, if_neg hx]

lemma binarize_loop_get (t w : Nat) (lums : List Nat) (x i : Nat)
    (row : BitArray) (hlen : row.bits.length = w) :
    (binarize_loop t w x lums row).get i =
      (row.get i || (decide (x ≤ i) && decide (i < w) &&
        sampleBlack t lums (i - x))) := by
  induction lums generalizing x row with
  | nil => simp [binarize_loop, sampleBlack_nil]
  | cons v rest ih =>
    by_cases hx : x < w
    · rw [binarize_loop, if_pos hx]
      have hlen2 : (if v < t then row.set x else row).bits.length = w := by
        by_cases hv : v < t <;> simp [hv, BitArray.length_set, hlen]
      rw [ih (x + 1) _ hlen2]
      by_cases hix : i = x
      · subst hix
        have hget : (if v < t then row.set i else row).get i =
            (row.get i || decide (v < t)) := by
          by_cases hv : v < t
          · simp [hv, BitArray.get_set_bit row i i (hlen ▸ hx)]
          · simp [hv]
        rw [hget]
        have h1 : decide (i + 1 ≤ i) = false := by simp
        have h2 : decide (i ≤ i) = true := by simp
        have h3 : decide (i < w) = true := by simp [hx]
        simp [h1, h2, h3, sampleBlack_cons_zero, Bool.or_assoc]
      · have hget : (if v < t then row.set x else row).get i = row.get i := by
          by_cases hv : v < t
          · simp [hv, BitArray.get_set_bit row x i (hlen ▸ hx), hix]
          · simp [hv]
        rw [hget]
        rcases Nat.lt_or_ge i x with hlt | hge
        · have h1 : decide (x + 1 ≤ i) = false := by simp; omega
          have h2 : decide (x ≤ i) = false := by simp; omega
          simp [h1, h2]
        · have hgt : x < i := Nat.lt_of_le_of_ne hge (fun h => hix h.symm)
          have h1 : decide (x + 1 ≤ i) = true := by simp; omega
          have h2 : decide (x ≤ i) = true := by simp [hge]
          have hsub : i - x = (i - (x + 1)) + 1 := by omega
          rw [h1, h2, hsub, sampleBlack_cons_succ]
    · rw [binarize_loop, if_neg hx]
      by_cases hi : i < w
      · have h2 : decide (x ≤ i) = false := by simp; omega
        simp [h2]
      · simp [hi]

lemma binarize_loop_zero_get (t w : Nat) (lums : List Nat) (i : Nat) :
    (binarize_loop t w 0 lums (BitArray.with_size w)).get i =
      (decide (i < w) && sampleBlack t lums i) := by
  rw [binarize_loop_get t w lums 0 i _ (BitArray.length_with_size w)]
  simp [BitArray.get_with_size]

lemma BitMatrix.get_set_cell (m : BitMatrix) (x y a b : Nat)
    (hx : x < m.width) (ha : a < m.width)
    (hidx : y * m.width + x < m.bits.length) :
    (m.set x y).get a b = if a = x ∧ b = y then true else m.get a b := by
  have hw : 0 < m.width := Nat.lt_of_le_of_lt (Nat.zero_le x) hx
  by_cases h : a = x ∧ b = y
  · obtain ⟨h1, h2⟩ := h
    subst h1; subst h2
    simp only [BitMatrix.set, BitMatrix.get, if_pos (And.intro rfl rfl)]
    rw [List.getElem?_set_self']
    simp [List.getElem?_eq_getElem hidx]
  · have hne : y * m.width + x ≠ b * m.width + a := by
      intro heq
      have h1 : (b * m.width + a) % m.width = a := by
        rw [Nat.add_mod, Nat.mul_mod_left]
        simp [Nat.mod_eq_of_lt ha]
      have h2 : (y * m.width + x) % m.width = x := by
        rw [Nat.add_mod, Nat.mul_mod_left]
        simp [Nat.mod_eq_of_lt hx]
      have hax : a = x := by rw [← h1, ← heq, h2]
      have hby : b = y := Nat.eq_of_mul_eq_mul_right hw (by omega)
      exact h ⟨hax, hby⟩
    simp only [BitMatrix.set, BitMatrix.get, if_neg h]
    rw [List.getElem?_set_ne hne]

lemma fill_fold_dims (t w : Nat) (lums : List Nat) (y : Nat) (l : List Nat)
    (m : BitMatrix) :
    ((l.foldl (fun acc x =>
        if lums.getD (y * w + x) 0 < t then acc.set x y else acc) m)).width = m.width ∧
    ((l.foldl (fun acc x =>
        if lums.getD (y * w + x) 0 < t then acc.set x y else acc) m)).height = m.height ∧
    ((l.foldl (fun acc x =>
        if lums.getD (y * w + x) 0 < t then acc.set x y else acc) m)).bits.length = m.bits.length := by
  induction l generalizing m with
  | nil => exact ⟨rfl, rfl, rfl⟩
  | cons c cs ih =>
    simp only [List.foldl_cons]
    rcases ih (if lums.getD (y * w + c) 0 < t then m.set c y else m) with ⟨i1, i2, i3⟩
    refine ⟨?_, ?_, ?_⟩
    · rw [i1]
      by_cases hc : lums.getD (y * w + c) 0 < t
      · rw [if_pos hc]; rfl
      · rw [if_neg hc]
    · rw [i2]
      by_cases hc : lums.getD (y * w + c) 0 < t
      · rw [if_pos hc]; rfl
      · rw [if_neg hc]
    · rw [i3]
      by_cases hc : lums.getD (y * w + c) 0 < t
      · rw [if_pos hc]
        simp [BitMatrix.set]
      · rw [if_neg hc]

lemma fill_row_fold_get (t w : Nat) (lums : List Nat) (y : Nat) (n : Nat)
    (m : BitMatrix) (hw : m.width = w) (hn : n ≤ w)
    (hidx : ∀ x, x < n → y * w + x < m.bits.length) (a b : Nat) (ha : a < w) :
    ((List.range n).foldl (fun acc x =>
        if lums.getD (y * w + x) 0 < t then acc.set x y else acc) m).get a b
      = (m.get a b || (decide (a < n) && decide (b = y) &&
          decide (lums.getD (y * w + a) 0 < t))) := by
  induction n with
  | zero => simp
  | succ k ih =>
    rw [List.range_succ, List.foldl_append, List.foldl_cons, List.foldl_nil]
    have hFget := ih (Nat.le_of_succ_le hn)
      (fun x hx => hidx x (Nat.lt_succ_of_lt hx))
    rcases fill_fold_dims t w lums y (List.range k) m with ⟨Fw, Fh, Flen⟩
    set F := (List.range k).foldl
      (fun acc x => if lums.getD (y * w + x) 0 < t then acc.set x y else acc) m
    have hkF : k < F.width := by rw [Fw, hw]; omega
    have haF : a < F.width := by rw [Fw, hw]; omega
    have hiF : y * F.width + k < F.bits.length := by
      rw [Flen, Fw, hw]; exact hidx k (Nat.lt_succ_self k)
    by_cases hcond : lums.getD (y * w + k) 0 < t
    · rw [if_pos hcond, BitMatrix.get_set_cell F k y a b hkF haF hiF]
      by_cases hky : a = k ∧ b = y
      · rw [if_pos hky]
        obtain ⟨h1, h2⟩ := hky
        have hc : decide (lums.getD (y * w + a) 0 < t) = true := by
          rw [h1]; exact decide_eq_true hcond
        have hlt : decide (a < k + 1) = true := by rw [h1]; simp
        have hbt : decide (b = y) = true := by rw [h2]; simp
        rw [hc, hlt, hbt]
        simp
      · rw [if_neg hky, hFget]
        by_cases hby : b = y
        · have hak : ¬ a = k := fun hc => hky ⟨hc, hby⟩
          have hdec : decide (a < k + 1) = decide (a < k) :=
            decide_eq_decide.mpr (by omega)
          rw [hdec]
        · have hbf : decide (b = y) = false := by
            simp only [decide_eq_false_iff_not]; exact hby
          rw [hbf]
          simp
    · rw [if_neg hcond, hFget]
      have hcf : decide (lums.getD (y * w + k) 0 < t) = false := by
        simp only [decide_eq_false_iff_not]; exact hcond
      by_cases hak : a = k
      · have h1 : decide (a < k) = false := by
          simp only [decide_eq_false_iff_not]; omega
        have h2 : decide (a < k + 1) = true := by
          simp only [decide_eq_true_eq]; omega
        have h3 : decide (lums.getD (y * w + a) 0 < t) = false := by
          rw [hak]; exact hcf
        rw [h1, h2, h3]
        simp
      · by_cases hby : b = y
        · have hdec : decide (a < k + 1) = decide (a < k) :=
            decide_eq_decide.mpr (by omega)
          rw [hdec]
        · have hbf : decide (b = y) = false := by
            simp only [decide_eq_false_iff_not]; exact hby
          rw [hbf]
          simp

lemma fill_matrix_row_dims (t w : Nat) (lums : List Nat) (y : Nat)
    (m : BitMatrix) :
    (fill_matrix_row t w lums y m).width = m.width ∧
    (fill_matrix_row t w lums y m).height = m.height ∧
    (fill_matrix_row t w lums y m).bits.length = m.bits.length :=
  fill_fold_dims t w lums y (List.range w) m

lemma fill_matrix_fold_dims (t w : Nat) (lums : List Nat) (l : List Nat)
    (m : BitMatrix) :
    ((l.foldl (fun acc y => fill_matrix_row t w lums y acc) m)).width = m.width ∧
    ((l.foldl (fun acc y => fill_matrix_row t w lums y acc) m)).height = m.height ∧
    ((l.foldl (fun acc y => fill_matrix_row t w lums y acc) m)).bits.length = m.bits.length := by
  induction l generalizing m with
  | nil => exact ⟨rfl, rfl, rfl⟩
  | cons c cs ih =>
    simp only [List.foldl_cons]
    rcases ih (fill_matrix_row t w lums c m) with ⟨i1, i2, i3⟩
    rcases fill_matrix_row_dims t w lums c m with ⟨j1, j2, j3⟩
    exact ⟨i1.trans j1, i2.trans j2, i3.trans j3⟩

lemma fill_matrix_fold_get (t w : Nat) (lums : List Nat) (n : Nat)
    (m : BitMatrix) (hw : m.width = w) (hlen : m.bits.length = w * m.height)
    (hn : n ≤ m.height) (a b : Nat) (ha : a < w) :
    ((List.range n).foldl (fun acc y => fill_matrix_row t w lums y acc) m).get a b
      = (m.get a b || (decide (b < n) &&
          decide (lums.getD (b * w + a) 0 < t))) := by
  induction n with
  | zero => simp
  | succ k ih =>
    rw [List.range_succ, List.foldl_append, List.foldl_cons, List.foldl_nil]
    have hFget := ih (Nat.le_of_succ_le hn)
    rcases fill_matrix_fold_dims t w lums (List.range k) m with ⟨Gw, Gh, Glen⟩
    set G := (List.range k).foldl (fun acc y => fill_matrix_row t w lums y acc) m
    have hidxG : ∀ x, x < w → k * w + x < G.bits.length := by
      intro x hx
      rw [Glen, hlen]
      calc k * w + x < k * w + w := by omega
        _ = (k + 1) * w := by ring
        _ ≤ m.height * w := Nat.mul_le_mul_right w hn
        _ = w * m.height := Nat.mul_comm _ _
    rw [fill_matrix_row, fill_row_fold_get t w lums k w G
      (Gw.trans hw) (Nat.le_refl w) hidxG a b ha, hFget]
    have hat : decide (a < w) = true := by
      simp only [decide_eq_true_eq]; exact ha
    by_cases hbk : b = k
    · have h1 : decide (b < k) = false := by
        simp only [decide_eq_false_iff_not]; omega
      have h2 : decide (b < k + 1) = true := by
        simp only [decide_eq_true_eq]; omega
      have h3 : decide (b = k) = true := by
        simp only [decide_eq_true_eq]; exact hbk
      have h4 : lums.getD (k * w + a) 0 = lums.getD (b * w + a) 0 := by rw [hbk]
      rw [h1, h2, h3, hat, h4]
      simp
    · have hdec : decide (b < k + 1) = decide (b < k) :=
        decide_eq_decide.mpr (by omega)
      have hbf : decide (b = k) = false := by
        simp only [decide_eq_false_iff_not]; exact hbk
      rw [hdec, hbf, hat]
      simp

lemma BitMatrix.get_fresh (w h x y : Nat) :
    (BitMatrix.mk w h (List.replicate (w * h) false)).get x y = false := by
  by_cases hlt : y * w + x < w * h
  · simp [BitMatrix.get, List.getElem?_replicate, hlt]
  · simp [BitMatrix.get, List.getElem?_replicate, hlt]

lemma init_row_cell (s : LuminanceSource) (y : Nat) (hy : y < s.height) :
    (init_state s).black_row_cache[y]? = some none := by
  simp [init_state, List.getElem?_replicate, hy]

lemma init_column_cell (s : LuminanceSource) (x : Nat) (hx : x < s.width) :
    (init_state s).black_column_cache[x]? = some none := by
  simp [init_state, List.getElem?_replicate, hx]

lemma row_path_bit (s : LuminanceSource) (img : Nat → Nat → Nat)
    (hwf : SourceWF s img) (t x y : Nat) (hx : x < s.width) (hy : y < s.height) :
    bitOfLine (get_black_row (Binarizer.with_threshold s t) (init_state s) y) x
      = some (decide (img x y < t)) := by
  obtain ⟨hrow, hrnone, hcol, hmlen, hmat⟩ := hwf
  simp only [get_black_row, Binarizer.with_threshold, init_row_cell s y hy,
    hrow y hy, bitOfLine]
  rw [binarize_loop_zero_get, sampleBlack_map_range t s.width _ x hx]
  simp [hx]

lemma column_path_bit (s : LuminanceSource) (img : Nat → Nat → Nat)
    (hwf : SourceWF s img) (t x y : Nat) (hx : x < s.width) (hy : y < s.height) :
    bitOfLine (get_black_line (Binarizer.with_threshold s t) (init_state s) x
        LineOrientation.Column) y
      = some (decide (img x y < t)) := by
  obtain ⟨hrow, hrnone, hcol, hmlen, hmat⟩ := hwf
  have hne : ¬ (LineOrientation.Column = LineOrientation.Row) := by decide
  simp only [get_black_line, if_neg hne, Binarizer.with_threshold,
    init_column_cell s x hx, hcol x hx, bitOfLine]
  rw [binarize_loop_zero_get, sampleBlack_map_range t s.height _ y hy]
  simp [hy]

lemma matrix_path_bit (s : LuminanceSource) (img : Nat → Nat → Nat)
    (hwf : SourceWF s img) (t x y : Nat) (hx : x < s.width) (hy : y < s.height) :
    bitOfMatrix (get_black_matrix (Binarizer.with_threshold s t) (init_state s)) x y
      = some (decide (img x y < t)) := by
  obtain ⟨hrow, hrnone, hcol, hmlen, hmat⟩ := hwf
  have hnz : ¬ (s.width = 0 ∨ s.height = 0) := by omega
  have hnew : BitMatrix.new s.width s.height =
      .ok ⟨s.width, s.height, List.replicate (s.width * s.height) false⟩ := by
    rw [BitMatrix.new, if_neg hnz]
  have hns : ¬ s.matrix.length < s.width * s.height := by simp [hmlen]
  simp only [get_black_matrix, Binarizer.with_threshold, init_state, hnew,
    if_neg hns, bitOfMatrix]
  rw [fill_matrix, fill_matrix_fold_get t s.width s.matrix s.height
    ⟨s.width, s.height, List.replicate (s.width * s.height) false⟩ rfl
    (by simp) (Nat.le_refl s.height) x y hx]
  rw [BitMatrix.get_fresh, hmat x hx y hy]
  simp [hy]

lemma get_black_row_ok (b : Binarizer) (st : BinarizerState) (y : Nat)
    (r : BitArray) (st2 : BinarizerState)
    (h : get_black_row b st y = .ok (r, st2)) :
    st2.black_matrix = st.black_matrix ∧
    st2.black_column_cache = st.black_column_cache ∧
    st2.black_row_cache[y]? = some (some r) := by
  cases hc : st.black_row_cache[y]? with
  | none =>
    simp only [get_black_row, hc] at h
    exact RustResult.noConfusion h
  | some cell =>
    cases cell with
    | some row =>
      simp only [get_black_row, hc, RustResult.ok.injEq, Prod.mk.injEq] at h
      obtain ⟨h1, h2⟩ := h
      subst h1; subst h2
      exact ⟨rfl, rfl, hc⟩
    | none =>
      cases hr : b.source.row y with
      | none =>
        simp only [get_black_row, hc, hr] at h
        exact RustResult.noConfusion h
      | some lums =>
        simp only [get_black_row, hc, hr, RustResult.ok.injEq, Prod.mk.injEq] at h
        obtain ⟨h1, h2⟩ := h
        subst h2
        subst h1
        refine ⟨rfl, rfl, ?_⟩
        simp only [List.getElem?_set_self', hc]
        rfl

/-! Concrete inputs used by the witness theorems. -/

/-- A concrete 2×2 image whose first row holds the boundary samples 127 and
128. -/
def imgW : Nat → Nat → Nat := fun x y =>
  if y = 0 then (if x = 0 then 127 else 128) else (if x = 0 then 50 else 200)

/-- A coherent 2×2 provider over `imgW`. -/
def srcW : LuminanceSource :=
  { width := 2, height := 2,
    row := fun y => if y < 2 then some ((List.range 2).map (fun x => imgW x y)) else none,
    column := fun x => (List.range 2).map (fun y => imgW x y),
    matrix := [127, 128, 50, 200] }

lemma srcW_wf : SourceWF srcW imgW :=
  ⟨by decide, fun y hy => if_neg (Nat.not_lt.mpr hy), by decide, by decide,
   by decide⟩

/-- A concrete 1×1 provider, used to exercise out-of-range indices. -/
def srcC3 : LuminanceSource :=
  { width := 1, height := 1,
    row := fun y => if y < 1 then some [5] else none,
    column := fun _ => [5],
    matrix := [5] }

/-- A 3×2 provider whose rows and columns are shorter than the binarizer
expects (1 sample each). -/
def srcShort : LuminanceSource :=
  { width := 3, height := 2,
    row := fun y => if y < 2 then some [200] else none,
    column := fun _ => [7],
    matrix := [0, 0, 0, 0, 0, 0] }

/-- The binarized row 0 of `srcW` at threshold 128. -/
def rW0 : BitArray := ⟨[true, false]⟩

/-- The cache state after computing row 0 of `srcW`. -/
def stW1 : BinarizerState :=
  { black_matrix := none, black_row_cache := [some rW0, none],
    black_column_cache := [none, none] }

/-- A concrete 2×2 matrix used as a pre-settled matrix cache. -/
def mW : BitMatrix := ⟨2, 2, [true, false, true, false]⟩

/-- A concrete 4×4 bit matrix for the witness-data theorems. -/
def bmW : BitMatrix := ⟨4, 4, List.replicate 16 false⟩

/-- A concrete successfully constructed witness bundle. -/
def wdW : WitnessData := ⟨2, 2, [10, 20, 30, 40], bmW⟩

/-! The claims. -/

/-- C1: for every luminance sample `v` and every threshold `t`, on each of
the three access paths (`get_black_row`, `get_black_line` with `Column`,
`get_black_matrix`) of a fresh binarizer over a coherent provider, the
binarized bit at an in-range pixel is true (black) iff `v < t`; in
particular `v = t` is white, so at the default threshold 128 the sample 127
is black and 128 is white. -/
theorem binarized_bit_iff_below_threshold (s : LuminanceSource)
    (img : Nat → Nat → Nat) (hwf : SourceWF s img) (t x y : Nat)
    (hx : x < s.width) (hy : y < s.height) :
    bitOfLine (get_black_row (Binarizer.with_threshold s t) (init_state s) y) x
      = some (decide (img x y < t)) ∧
    bitOfLine (get_black_line (Binarizer.with_threshold s t) (init_state s) x
        LineOrientation.Column) y = some (decide (img x y < t)) ∧
    bitOfMatrix (get_black_matrix (Binarizer.with_threshold s t) (init_state s)) x y
      = some (decide (img x y < t)) :=
  ⟨row_path_bit s img hwf t x y hx hy, column_path_bit s img hwf t x y hx hy,
   matrix_path_bit s img hwf t x y hx hy⟩

theorem binarized_bit_iff_below_threshold_witness :
    bitOfLine (get_black_row (Binarizer.with_threshold srcW 128)
        (init_state srcW) 0) 0 = some true ∧
    bitOfLine (get_black_row (Binarizer.with_threshold srcW 128)
        (init_state srcW) 0) 1 = some false := by
  constructor
  · exact (binarized_bit_iff_below_threshold srcW imgW srcW_wf 128 0 0
      (by decide) (by decide)).1
  · exact (binarized_bit_iff_below_threshold srcW imgW srcW_wf 128 1 0
      (by decide) (by decide)).1

/-- C2: for every in-range `(x, y)` over a coherent provider and any fixed
threshold, the bit `(x, y)` of `get_black_matrix` equals bit `x` of
`get_black_row y`, which equals bit `y` of `get_black_line x Column`. -/
theorem cross_consistency (s : LuminanceSource) (img : Nat → Nat → Nat)
    (hwf : SourceWF s img) (t x y : Nat) (hx : x < s.width)
    (hy : y < s.height) :
    bitOfMatrix (get_black_matrix (Binarizer.with_threshold s t) (init_state s)) x y
      = bitOfLine (get_black_row (Binarizer.with_threshold s t) (init_state s) y) x ∧
    bitOfLine (get_black_row (Binarizer.with_threshold s t) (init_state s) y) x
      = bitOfLine (get_black_line (Binarizer.with_threshold s t) (init_state s) x
          LineOrientation.Column) y := by
  rw [matrix_path_bit s img hwf t x y hx hy, row_path_bit s img hwf t x y hx hy,
    column_path_bit s img hwf t x y hx hy]
  exact ⟨rfl, rfl⟩

theorem cross_consistency_witness :
    bitOfMatrix (get_black_matrix (Binarizer.with_threshold srcW 128)
        (init_state srcW)) 1 0
      = bitOfLine (get_black_row (Binarizer.with_threshold srcW 128)
          (init_state srcW) 0) 1 ∧
    bitOfLine (get_black_row (Binarizer.with_threshold srcW 128)
        (init_state srcW) 0) 1
      = bitOfLine (get_black_line (Binarizer.with_threshold srcW 128)
          (init_state srcW) 1 LineOrientation.Column) 0 :=
  cross_consistency srcW imgW srcW_wf 128 1 0 (by decide) (by decide)

/-- C3: the claim says an out-of-range line index is returned to the caller
as an index-out-of-bounds error result; the code instead panics, because
`self.black_row_cache[y]` / `self.black_column_cache[l]` index the cache
vector before any bounds check can produce the error the function builds.
On a 1×1 source, index 1 panics on all three entry points. -/
theorem out_of_range_index_panics :
    get_black_row (Binarizer.new srcC3) (init_state srcC3) 1 = .panicked ∧
    get_black_line (Binarizer.new srcC3) (init_state srcC3) 1
      LineOrientation.Row = .panicked ∧
    get_black_line (Binarizer.new srcC3) (init_state srcC3) 1
      LineOrientation.Column = .panicked := by
  refine ⟨by decide, by decide, by decide⟩

/-- C4: for in-range `y`, when the matrix cell is unsettled
`get_black_row_from_matrix` behaves exactly as `get_black_row`; when it is
settled with `m`, it returns row `y` extracted from `m` with the state (and
in particular the provider) untouched. -/
theorem black_row_from_matrix_spec (b : Binarizer) (st : BinarizerState)
    (y : Nat) (hy : y < b.height) :
    (st.black_matrix = none →
      get_black_row_from_matrix b st y = get_black_row b st y) ∧
    (∀ m, st.black_matrix = some m →
      get_black_row_from_matrix b st y = .ok (m.getRow y, st)) := by
  constructor
  · intro h
    simp only [get_black_row_from_matrix, h]
  · intro m h
    simp only [get_black_row_from_matrix, h]

theorem black_row_from_matrix_spec_witness :
    get_black_row_from_matrix (Binarizer.new srcW) (init_state srcW) 0
      = get_black_row (Binarizer.new srcW) (init_state srcW) 0 ∧
    get_black_row_from_matrix (Binarizer.new srcW)
        { init_state srcW with black_matrix := some mW } 0
      = .ok (mW.getRow 0, { init_state srcW with black_matrix := some mW }) :=
  ⟨(black_row_from_matrix_spec (Binarizer.new srcW) (init_state srcW) 0
      (by decide)).1 rfl,
   (black_row_from_matrix_spec (Binarizer.new srcW)
      { init_state srcW with black_matrix := some mW } 0 (by decide)).2 mW rfl⟩

/-- C5: `get_black_row_from_matrix` leaves the matrix cache cell in its
prior state — in particular an unsettled matrix cell stays unsettled; the
fallback populates only the row cache. -/
theorem black_row_from_matrix_matrix_cache_frame (b : Binarizer)
    (st : BinarizerState) (y : Nat) (r : BitArray) (st2 : BinarizerState)
    (h : get_black_row_from_matrix b st y = .ok (r, st2)) :
    st2.black_matrix = st.black_matrix := by
  cases hm : st.black_matrix with
  | some m =>
    simp only [get_black_row_from_matrix, hm, RustResult.ok.injEq,
      Prod.mk.injEq] at h
    rw [← h.2]
    exact hm
  | none =>
    simp only [get_black_row_from_matrix, hm] at h
    rw [(get_black_row_ok b st y r st2 h).1]
    exact hm

theorem black_row_from_matrix_matrix_cache_frame_witness :
    (get_black_row_from_matrix (Binarizer.new srcW) (init_state srcW) 0
      = .ok (rW0, stW1)) ∧
    stW1.black_matrix = (init_state srcW).black_matrix := by
  have h : get_black_row_from_matrix (Binarizer.new srcW) (init_state srcW) 0
      = .ok (rW0, stW1) := by decide
  exact ⟨h, black_row_from_matrix_matrix_cache_frame (Binarizer.new srcW)
    (init_state srcW) 0 rW0 stW1 h⟩

/-- C6: a second `get_black_row y` call returns the bit-identical row of the
first call and leaves the whole cache state (matrix cell, every row cell,
every column cell) exactly as it was after the first call. -/
theorem get_black_row_idempotent (b : Binarizer) (st : BinarizerState)
    (y : Nat) (r : BitArray) (st2 : BinarizerState)
    (h : get_black_row b st y = .ok (r, st2)) :
    get_black_row b st2 y = .ok (r, st2) := by
  have hcell := (get_black_row_ok b st y r st2 h).2.2
  simp only [get_black_row, hcell]

theorem get_black_row_idempotent_witness :
    (get_black_row (Binarizer.new srcW) (init_state srcW) 0
      = .ok (rW0, stW1)) ∧
    get_black_row (Binarizer.new srcW) stW1 0 = .ok (rW0, stW1) := by
  have h : get_black_row (Binarizer.new srcW) (init_state srcW) 0
      = .ok (rW0, stW1) := by decide
  exact ⟨h, get_black_row_idempotent (Binarizer.new srcW) (init_state srcW)
    0 rW0 stW1 h⟩

/-- C7: `WitnessData::new` fails fatally exactly when
`image.len() ≠ width*height`, and on success the produced value's fields
are exactly the arguments. -/
theorem witness_new_validates_size (width height : Nat) (image : List Nat)
    (bin : BitMatrix) :
    (WitnessData.new width height image bin = none ↔
      image.length ≠ width * height) ∧
    (∀ wd, WitnessData.new width height image bin = some wd →
      wd.width = width ∧ wd.height = height ∧ wd.image = image ∧
      wd.binarized_image = bin) := by
  constructor
  · constructor
    · intro h hlen
      rw [WitnessData.new, if_pos hlen] at h
      exact Option.noConfusion h
    · intro hlen
      rw [WitnessData.new, if_neg hlen]
  · intro wd h
    by_cases hlen : image.length = width * height
    · rw [WitnessData.new, if_pos hlen] at h
      obtain rfl := Option.some.inj h
      exact ⟨rfl, rfl, rfl, rfl⟩
    · rw [WitnessData.new, if_neg hlen] at h
      exact Option.noConfusion h

theorem witness_new_validates_size_witness :
    WitnessData.new 4 4 (List.replicate 3 0) bmW = none ∧
    ((WitnessData.mk 1 1 [9] bmW).width = 1 ∧
     (WitnessData.mk 1 1 [9] bmW).height = 1 ∧
     (WitnessData.mk 1 1 [9] bmW).image = [9] ∧
     (WitnessData.mk 1 1 [9] bmW).binarized_image = bmW) :=
  ⟨(witness_new_validates_size 4 4 (List.replicate 3 0) bmW).1.mpr (by decide),
   (witness_new_validates_size 1 1 [9] bmW).2 (WitnessData.mk 1 1 [9] bmW)
     (by decide)⟩

/-- C8 counterexample: the claim says no construction with `width = 0`
yields a valid instance, but `WitnessData::new(0, 4, [], bm)` passes the
size assertion (`0 = 0*4`) and produces an instance with `width = 0`. -/
theorem witness_zero_width_constructible :
    WitnessData.new 0 4 [] bmW = some (WitnessData.mk 0 4 [] bmW) ∧
    (WitnessData.mk 0 4 [] bmW).width = 0 :=
  ⟨by decide, rfl⟩

/-- C8 (amended): construction only enforces
`image.len() = width*height`, so a valid instance need not have positive
dimensions: with `width = 0` or `height = 0`, construction succeeds exactly
when the image buffer is empty. -/
theorem witness_new_zero_dim_iff_empty (width height : Nat)
    (image : List Nat) (bin : BitMatrix) (hz : width = 0 ∨ height = 0) :
    (∃ wd, WitnessData.new width height image bin = some wd) ↔ image = [] := by
  have hwh : width * height = 0 := by rcases hz with h | h <;> simp [h]
  constructor
  · rintro ⟨wd, h⟩
    by_cases hlen : image.length = width * height
    · rw [hwh] at hlen
      exact List.length_eq_zero.mp hlen
    · rw [WitnessData.new, if_neg hlen] at h
      exact Option.noConfusion h
  · intro h
    subst h
    exact ⟨_, by rw [WitnessData.new, if_pos (by simp [hwh])]⟩

theorem witness_new_zero_dim_iff_empty_witness :
    ∃ wd, WitnessData.new 0 0 [] bmW = some wd :=
  (witness_new_zero_dim_iff_empty 0 0 [] bmW (Or.inl rfl)).mpr rfl

/-- C9: on a successfully constructed `WitnessData`, `get_pixel (x, y)` with
in-range coordinates returns the row-major raw byte `image[y*width + x]`,
and with `x ≥ width` or `y ≥ height` it is a fatal precondition failure
(a panic, like the construction size mismatch). -/
theorem get_pixel_spec (width height : Nat) (image : List Nat)
    (bin : BitMatrix) (wd : WitnessData)
    (hnew : WitnessData.new width height image bin = some wd) (x y : Nat) :
    (x < width ∧ y < height →
      wd.get_pixel x y = some (image.getD (y * width + x) 0)) ∧
    (width ≤ x ∨ height ≤ y → wd.get_pixel x y = none) := by
  by_cases hlen : image.length = width * height
  · rw [WitnessData.new, if_pos hlen] at hnew
    obtain rfl := Option.some.inj hnew
    constructor
    · rintro ⟨hx, hy⟩
      have hidx : y * width + x < image.length := by
        rw [hlen]
        calc y * width + x < y * width + width := by omega
          _ = (y + 1) * width := by ring
          _ ≤ height * width := Nat.mul_le_mul_right width hy
          _ = width * height := Nat.mul_comm _ _
      simp only [WitnessData.get_pixel]
      rw [if_pos ⟨hx, hy⟩, List.getElem?_eq_getElem hidx]
      simp [List.getD_eq_getElem?_getD, List.getElem?_eq_getElem hidx]
    · intro hxy
      simp only [WitnessData.get_pixel]
      rw [if_neg (by omega)]
  · rw [WitnessData.new, if_neg hlen] at hnew
    exact Option.noConfusion hnew

theorem get_pixel_spec_witness :
    wdW.get_pixel 1 0 = some 20 ∧ wdW.get_pixel 2 0 = none := by
  have hnew : WitnessData.new 2 2 [10, 20, 30, 40] bmW = some wdW := by decide
  constructor
  · exact (get_pixel_spec 2 2 [10, 20, 30, 40] bmW wdW hnew 1 0).1
      ⟨by decide, by decide⟩
  · exact (get_pixel_spec 2 2 [10, 20, 30, 40] bmW wdW hnew 2 0).2
      (Or.inl (by decide))

/-- C10 (implicit): when the provider returns a row (resp. column) shorter
than the binarizer's width (resp. height), the in-range line calls still
succeed and the positions beyond the returned samples read white (false),
never an error. -/
theorem short_line_white_fill (s : LuminanceSource) (t : Nat)
    (y : Nat) (lumsR : List Nat) (i : Nat)
    (x : Nat) (lumsC : List Nat) (j : Nat)
    (hy : y < s.height) (hrow : s.row y = some lumsR)
    (hi : lumsR.length ≤ i) (hiw : i < s.width)
    (hx : x < s.width) (hcol : s.column x = lumsC)
    (hj : lumsC.length ≤ j) (hjh : j < s.height) :
    bitOfLine (get_black_row (Binarizer.with_threshold s t) (init_state s) y) i
      = some false ∧
    bitOfLine (get_black_line (Binarizer.with_threshold s t) (init_state s) x
        LineOrientation.Column) j = some false := by
  constructor
  · simp only [get_black_row, Binarizer.with_threshold, init_row_cell s y hy,
      hrow, bitOfLine]
    rw [binarize_loop_zero_get]
    have hs : sampleBlack t lumsR i = false := by
      simp [sampleBlack, List.getElem?_eq_none hi]
    simp [hs]
  · have hne : ¬ (LineOrientation.Column = LineOrientation.Row) := by decide
    simp only [get_black_line, if_neg hne, Binarizer.with_threshold,
      init_column_cell s x hx, hcol, bitOfLine]
    rw [binarize_loop_zero_get]
    have hs : sampleBlack t lumsC j = false := by
      simp [sampleBlack, List.getElem?_eq_none hj]
    simp [hs]

theorem short_line_white_fill_witness :
    bitOfLine (get_black_row (Binarizer.with_threshold srcShort 128)
        (init_state srcShort) 0) 2 = some false ∧
    bitOfLine (get_black_line (Binarizer.with_threshold srcShort 128)
        (init_state srcShort) 0 LineOrientation.Column) 1 = some false :=
  short_line_white_fill srcShort 128 0 [200] 2 0 [7] 1 (by decide) (by decide)
    (by decide) (by decide) (by decide) (by decide) (by decide) (by decide)

end Rxing
